import Mathlib

/-!
Verification of the session-coordination and negotiation-relay subsystem of the
video-calling repository, against its natural-language specification.

The server keeps three pieces of mutable state (src/server/src/index.ts):
  * roomIdToParticipants : Map<RoomId, Map<string, DisplayName>>  (insertion order),
  * the socket.io room membership of each connected socket (socket.join / socket.leave,
    automatically cleared on disconnect), which is what socket.to(roomId).emit uses,
  * per-socket data (socket.data.roomId / socket.data.displayName),
plus the module-level Xirsys credential cache.

JavaScript Maps are embedded as insertion-ordered association lists with the
exact Map semantics: set on an existing key updates in place, delete removes
the entry, iteration order is insertion order.
-/

/-- Association-list lookup, first entry with the given key (JS Map.get). -/
def lookupA {α : Type} (k : String) : List (String × α) → Option α
  | [] => none
  | p :: rest => if p.1 = k then some p.2 else lookupA k rest

/-- Association-list update (JS Map.set): replace in place if present, else append. -/
def setA {α : Type} (k : String) (v : α) : List (String × α) → List (String × α)
  | [] => [(k, v)]
  | p :: rest => if p.1 = k then (k, v) :: rest else p :: setA k v rest

/-- Association-list removal (JS Map.delete). -/
def eraseA {α : Type} (k : String) : List (String × α) → List (String × α)
  | [] => []
  | p :: rest => if p.1 = k then rest else p :: eraseA k rest

/-- The keys of an association list, in order (JS Map.keys). -/
def keysA {α : Type} (l : List (String × α)) : List String := l.map (·.1)

theorem keysA_nil {α : Type} : keysA ([] : List (String × α)) = [] := rfl

theorem keysA_cons {α : Type} (p : String × α) (rest : List (String × α)) :
    keysA (p :: rest) = p.1 :: keysA rest := rfl

theorem mem_keysA_iff {α : Type} {k : String} :
    ∀ {l : List (String × α)}, k ∈ keysA l ↔ ∃ v, (k, v) ∈ l := by
  intro l
  constructor
  · intro h
    rcases List.mem_map.mp h with ⟨p, hp, he⟩
    refine ⟨p.2, ?_⟩
    rw [← he]
    exact hp
  · rintro ⟨v, hv⟩
    exact List.mem_map.mpr ⟨(k, v), hv, rfl⟩

theorem lookupA_setA_self {α : Type} (k : String) (v : α) :
    ∀ l : List (String × α), lookupA k (setA k v l) = some v := by
  intro l
  induction l with
  | nil => simp [setA, lookupA]
  | cons p rest ih =>
    by_cases h : p.1 = k
    · simp [setA, h, lookupA]
    · simp [setA, h, lookupA, ih]

theorem lookupA_setA_ne {α : Type} {k k' : String} (v : α) (h : k' ≠ k) :
    ∀ l : List (String × α), lookupA k' (setA k v l) = lookupA k' l := by
  intro l
  induction l with
  | nil => simp [setA, lookupA, Ne.symm h]
  | cons p rest ih =>
    by_cases hp : p.1 = k
    · subst hp
      simp [setA, lookupA, Ne.symm h]
    · simp [setA, hp, lookupA, ih]

theorem lookupA_eraseA_ne {α : Type} {k k' : String} (h : k' ≠ k) :
    ∀ l : List (String × α), lookupA k' (eraseA k l) = lookupA k' l := by
  intro l
  induction l with
  | nil => simp [eraseA]
  | cons p rest ih =>
    by_cases hp : p.1 = k
    · subst hp
      simp [eraseA, lookupA, Ne.symm h]
    · simp [eraseA, hp, lookupA, ih]

theorem lookupA_eq_none {α : Type} {k : String} :
    ∀ {l : List (String × α)}, lookupA k l = none ↔ k ∉ keysA l := by
  intro l
  induction l with
  | nil => simp [lookupA, keysA]
  | cons p rest ih =>
    rw [keysA_cons]
    by_cases hp : p.1 = k
    · simp only [lookupA, if_pos hp, List.mem_cons]
      constructor
      · intro h
        simp at h
      · intro h
        exact absurd (Or.inl hp.symm) h
    · simp only [lookupA, if_neg hp, List.mem_cons]
      rw [ih]
      constructor
      · rintro h (hc | hc)
        · exact hp hc.symm
        · exact h hc
      · intro h hc
        exact h (Or.inr hc)

theorem lookupA_eraseA_self {α : Type} {k : String} :
    ∀ {l : List (String × α)}, (keysA l).Nodup → lookupA k (eraseA k l) = none := by
  intro l
  induction l with
  | nil => simp [eraseA, lookupA]
  | cons p rest ih =>
    intro hnd
    rw [keysA_cons, List.nodup_cons] at hnd
    by_cases hp : p.1 = k
    · simp only [eraseA, if_pos hp]
      exact lookupA_eq_none.mpr (hp ▸ hnd.1)
    · simp only [eraseA, if_neg hp, lookupA, if_neg hp]
      exact ih hnd.2

theorem mem_setA {α : Type} {x : String × α} {k : String} {v : α} :
    ∀ {l : List (String × α)}, x ∈ setA k v l → x = (k, v) ∨ x ∈ l := by
  intro l
  induction l with
  | nil => simp [setA]
  | cons p rest ih =>
    by_cases hp : p.1 = k
    · simp only [setA, if_pos hp, List.mem_cons]
      rintro (h | h)
      · exact Or.inl h
      · exact Or.inr (Or.inr h)
    · simp only [setA, if_neg hp, List.mem_cons]
      rintro (h | h)
      · exact Or.inr (Or.inl h)
      · rcases ih h with h' | h'
        · exact Or.inl h'
        · exact Or.inr (Or.inr h')

theorem mem_eraseA {α : Type} {x : String × α} {k : String} :
    ∀ {l : List (String × α)}, x ∈ eraseA k l → x ∈ l := by
  intro l
  induction l with
  | nil => simp [eraseA]
  | cons p rest ih =>
    by_cases hp : p.1 = k
    · simp only [eraseA, if_pos hp, List.mem_cons]
      exact fun h => Or.inr h
    · simp only [eraseA, if_neg hp, List.mem_cons]
      rintro (h | h)
      · exact Or.inl h
      · exact Or.inr (ih h)

theorem mem_setA_of_ne {α : Type} {k' k : String} {w : α} (v : α) (hne : k' ≠ k) :
    ∀ {l : List (String × α)}, (k', w) ∈ l → (k', w) ∈ setA k v l := by
  intro l
  induction l with
  | nil =>
    intro h
    exact absurd h (List.not_mem_nil _)
  | cons p rest ih =>
    intro h
    rcases List.mem_cons.mp h with h1 | h1
    · by_cases hp : p.1 = k
      · exact absurd ((congrArg Prod.fst h1).trans hp) hne
      · simp only [setA, if_neg hp, List.mem_cons]
        exact Or.inl h1
    · by_cases hp : p.1 = k
      · simp only [setA, if_pos hp, List.mem_cons]
        exact Or.inr h1
      · simp only [setA, if_neg hp, List.mem_cons]
        exact Or.inr (ih h1)

theorem mem_eraseA_of_ne {α : Type} {k' k : String} {w : α} (hne : k' ≠ k) :
    ∀ {l : List (String × α)}, (k', w) ∈ l → (k', w) ∈ eraseA k l := by
  intro l
  induction l with
  | nil =>
    intro h
    exact absurd h (List.not_mem_nil _)
  | cons p rest ih =>
    intro h
    rcases List.mem_cons.mp h with h1 | h1
    · by_cases hp : p.1 = k
      · exact absurd ((congrArg Prod.fst h1).trans hp) hne
      · simp only [eraseA, if_neg hp, List.mem_cons]
        exact Or.inl h1
    · by_cases hp : p.1 = k
      · simp only [eraseA, if_pos hp]
        exact h1
      · simp only [eraseA, if_neg hp, List.mem_cons]
        exact Or.inr (ih h1)

theorem mem_keysA_setA_imp {α : Type} {x k : String} {v : α}
    {l : List (String × α)} (h : x ∈ keysA (setA k v l)) : x = k ∨ x ∈ keysA l := by
  rcases mem_keysA_iff.mp h with ⟨w, hw⟩
  rcases mem_setA hw with h' | h'
  · exact Or.inl (congrArg Prod.fst h')
  · exact Or.inr (mem_keysA_iff.mpr ⟨w, h'⟩)

theorem lookupA_mem {α : Type} {k : String} {v : α} :
    ∀ {l : List (String × α)}, lookupA k l = some v → (k, v) ∈ l := by
  intro l
  induction l with
  | nil => simp [lookupA]
  | cons p rest ih =>
    by_cases hp : p.1 = k
    · simp only [lookupA, if_pos hp]
      intro h
      have hv : p.2 = v := Option.some_inj.mp h
      have he : (k, v) = p := by
        rw [← hp, ← hv]
      exact List.mem_cons.mpr (Or.inl he)
    · simp only [lookupA, if_neg hp]
      intro h
      exact List.mem_cons.mpr (Or.inr (ih h))

theorem self_mem_keysA_setA {α : Type} (k : String) (v : α)
    (l : List (String × α)) : k ∈ keysA (setA k v l) :=
  mem_keysA_iff.mpr ⟨v, lookupA_mem (lookupA_setA_self k v l)⟩

theorem mem_keysA_setA {α : Type} {k' : String} (k : String) (v : α)
    {l : List (String × α)} (h : k' ∈ keysA l) : k' ∈ keysA (setA k v l) := by
  by_cases hk : k' = k
  · rw [hk]
    exact self_mem_keysA_setA k v l
  · rcases mem_keysA_iff.mp h with ⟨w, hw⟩
    exact mem_keysA_iff.mpr ⟨w, mem_setA_of_ne v hk hw⟩

theorem mem_keysA_eraseA {α : Type} {k' k : String} (hne : k' ≠ k)
    {l : List (String × α)} (h : k' ∈ keysA l) : k' ∈ keysA (eraseA k l) := by
  rcases mem_keysA_iff.mp h with ⟨w, hw⟩
  exact mem_keysA_iff.mpr ⟨w, mem_eraseA_of_ne hne hw⟩

theorem nodup_keysA_setA {α : Type} (k : String) (v : α) :
    ∀ {l : List (String × α)}, (keysA l).Nodup → (keysA (setA k v l)).Nodup := by
  intro l
  induction l with
  | nil => simp [setA, keysA]
  | cons p rest ih =>
    intro hnd
    rw [keysA_cons, List.nodup_cons] at hnd
    by_cases hp : p.1 = k
    · have he : setA k v (p :: rest) = (k, v) :: rest := by
        simp [setA, hp]
      rw [he, keysA_cons, List.nodup_cons]
      exact ⟨hp ▸ hnd.1, hnd.2⟩
    · have he : setA k v (p :: rest) = p :: setA k v rest := by
        simp [setA, hp]
      rw [he, keysA_cons, List.nodup_cons]
      refine ⟨fun hmem => ?_, ih hnd.2⟩
      rcases mem_keysA_setA_imp hmem with h | h
      · exact hp h
      · exact hnd.1 h

theorem keysA_eraseA_sublist {α : Type} (k : String) :
    ∀ (l : List (String × α)), List.Sublist (keysA (eraseA k l)) (keysA l) := by
  intro l
  induction l with
  | nil => simp [eraseA, keysA]
  | cons p rest ih =>
    by_cases hp : p.1 = k
    · have he : eraseA k (p :: rest) = rest := by
        simp [eraseA, hp]
      rw [he, keysA_cons]
      exact List.Sublist.cons _ (List.Sublist.refl _)
    · have he : eraseA k (p :: rest) = p :: eraseA k rest := by
        simp [eraseA, hp]
      rw [he, keysA_cons, keysA_cons]
      exact List.Sublist.cons₂ _ ih

theorem nodup_keysA_eraseA {α : Type} (k : String) {l : List (String × α)}
    (h : (keysA l).Nodup) : (keysA (eraseA k l)).Nodup :=
  List.Nodup.sublist (keysA_eraseA_sublist k l) h

theorem length_setA_le {α : Type} (k : String) (v : α) :
    ∀ (l : List (String × α)), (setA k v l).length ≤ l.length + 1 := by
  intro l
  induction l with
  | nil => simp [setA]
  | cons p rest ih =>
    by_cases hp : p.1 = k
    · simp only [setA, if_pos hp, List.length_cons]
      omega
    · simp only [setA, if_neg hp, List.length_cons]
      omega

theorem length_eraseA_le {α : Type} (k : String) :
    ∀ (l : List (String × α)), (eraseA k l).length ≤ l.length := by
  intro l
  induction l with
  | nil => simp [eraseA]
  | cons p rest ih =>
    by_cases hp : p.1 = k
    · simp only [eraseA, if_pos hp, List.length_cons]
      omega
    · simp only [eraseA, if_neg hp, List.length_cons]
      omega

theorem eraseA_of_not_mem {α : Type} {k : String} :
    ∀ {l : List (String × α)}, k ∉ keysA l → eraseA k l = l := by
  intro l
  induction l with
  | nil => simp [eraseA]
  | cons p rest ih =>
    intro h
    rw [keysA_cons, List.mem_cons] at h
    push_neg at h
    have hp : p.1 ≠ k := fun hh => h.1 hh.symm
    simp only [eraseA, if_neg hp]
    rw [ih h.2]

theorem setA_of_lookupA {α : Type} {k : String} {v : α} :
    ∀ {l : List (String × α)}, lookupA k l = some v → setA k v l = l := by
  intro l
  induction l with
  | nil => simp [lookupA]
  | cons p rest ih =>
    by_cases hp : p.1 = k
    · simp only [lookupA, if_pos hp]
      intro h
      have hv : p.2 = v := Option.some_inj.mp h
      have he : (k, v) = p := by
        rw [← hp, ← hv]
      simp only [setA, if_pos hp]
      rw [he]
    · simp only [lookupA, if_neg hp]
      intro h
      simp only [setA, if_neg hp]
      rw [ih h]

theorem setA_of_not_mem {α : Type} {k : String} (v : α) :
    ∀ {l : List (String × α)}, k ∉ keysA l → setA k v l = l ++ [(k, v)] := by
  intro l
  induction l with
  | nil => simp [setA]
  | cons p rest ih =>
    intro h
    rw [keysA_cons, List.mem_cons] at h
    push_neg at h
    have hp : p.1 ≠ k := fun hh => h.1 hh.symm
    simp only [setA, if_neg hp, List.cons_append]
    rw [ih h.2]

theorem mem_lookupA {α : Type} {k : String} {v : α} :
    ∀ {l : List (String × α)}, (keysA l).Nodup → (k, v) ∈ l → lookupA k l = some v := by
  intro l
  induction l with
  | nil => simp
  | cons p rest ih =>
    intro hnd hmem
    rw [keysA_cons, List.nodup_cons] at hnd
    rcases List.mem_cons.mp hmem with h | h
    · rw [← h]
      simp [lookupA]
    · have hk : k ∈ keysA rest := mem_keysA_iff.mpr ⟨v, h⟩
      by_cases hp : p.1 = k
      · exact absurd hk (hp ▸ hnd.1)
      · simp only [lookupA, if_neg hp]
        exact ih hnd.2 h

theorem filterMap_nil_of_none {α β : Type} (f : α → Option β) :
    ∀ l : List α, (∀ a ∈ l, f a = none) → l.filterMap f = [] := by
  intro l
  induction l with
  | nil => simp
  | cons a rest ih =>
    intro h
    rw [List.filterMap_cons, h a (List.mem_cons_self _ _)]
    exact ih (fun a ha => h a (List.mem_cons_of_mem _ ha))

/-!
## Server data model (src/server/src/index.ts)
-/

/-- An ICE server descriptor: urls is string | string[], with optional
username/credential (type IceServer, index.ts line 40). -/
structure IceServer where
  urls : Sum String (List String)
  username : Option String
  credential : Option String
deriving DecidableEq

/-- The Xirsys configuration read from the environment (XIRSYS_IDENT,
XIRSYS_SECRET, XIRSYS_CHANNEL, XIRSYS_TTL_SECONDS); an empty string models an
unset variable, matching JS falsiness of empty strings. -/
structure XirsysConfig where
  ident : String
  secret : String
  channel : String
  ttlSeconds : Int
deriving DecidableEq

/-- The module-level credential cache (xirsysCache, index.ts line 41). -/
structure XirsysCache where
  iceServers : List IceServer
  fetchedAt : Int
deriving DecidableEq

/-- The possible outcomes of the external PUT request inside
fetchXirsysIceServers: a thrown network error, a non-ok HTTP status, a JSON
body without a v.iceServers array, or a body with such an array. -/
inductive FetchOutcome where
  | networkError
  | httpError
  | badPayload
  | payload (servers : List IceServer)
deriving DecidableEq

/-- The fetch-and-validate part of fetchXirsysIceServers (index.ts lines 51-68):
only a response carrying a non-empty v.iceServers array populates the cache;
every failure returns null and leaves the cache untouched. -/
def attemptFetch (cache : Option XirsysCache) (now : Int) :
    FetchOutcome → Option (List IceServer) × Option XirsysCache
  | FetchOutcome.networkError => (none, cache)
  | FetchOutcome.httpError => (none, cache)
  | FetchOutcome.badPayload => (none, cache)
  | FetchOutcome.payload l =>
      if 0 < l.length then (some l, some ⟨l, now⟩) else (none, cache)

/-- fetchXirsysIceServers (index.ts lines 43-69). Returns the fetched (or
cached) server list, or none on any failure, together with the cache after the
call. The unconfigured-issuer guard precedes the cache check, as in the code. -/
def fetchXirsysIceServers (cfg : XirsysConfig) (cache : Option XirsysCache)
    (now : Int) (o : FetchOutcome) : Option (List IceServer) × Option XirsysCache :=
  if cfg.ident = "" ∨ cfg.secret = "" ∨ cfg.channel = "" then (none, cache)
  else
    match cache with
    | some c =>
        if now - c.fetchedAt < cfg.ttlSeconds * 1000 then (some c.iceServers, some c)
        else attemptFetch cache now o
    | none => attemptFetch cache now o

/-- The environment configuration used by GET /config; empty string models an
unset variable (JS falsiness). -/
structure Env where
  iceStunUrls : String
  turnUrl : String
  turnUsername : String
  turnPassword : String
  publicBaseUrl : String
  xcfg : XirsysConfig
deriving DecidableEq

/-- Splitting a string on commas, JS String.split(",") semantics: an empty
string gives one empty field, a trailing comma a trailing empty field. -/
def splitCommaAux : List Char → List Char → List String
  | [], acc => [String.mk acc.reverse]
  | c :: cs, acc =>
      if c = ',' then String.mk acc.reverse :: splitCommaAux cs []
      else splitCommaAux cs (c :: acc)

def splitComma (s : String) : List String := splitCommaAux s.data []

/-- JS String.trim: whitespace stripped from both ends. -/
def isWS (c : Char) : Bool := c = ' ' ∨ c = '\t' ∨ c = '\n' ∨ c = '\r'

def trimS (s : String) : String :=
  String.mk (((s.data.dropWhile isWS).reverse.dropWhile isWS).reverse)

/-- The parsed ICE_STUN_URLS list (index.ts lines 87-90): comma-split,
trimmed, empties dropped, with the Google STUN default when unset. -/
def stunList (env : Env) : List String :=
  ((splitComma (if env.iceStunUrls = "" then "stun:stun.l.google.com:19302"
                else env.iceStunUrls)).map trimS).filter (fun s => s ≠ "")

/-- The base iceServers list holding the configured STUN urls
(index.ts lines 93-96). -/
def stunBase (env : Env) : List IceServer :=
  if stunList env = [] then [] else [⟨Sum.inr (stunList env), none, none⟩]

/-- The static TURN fallback entry (index.ts lines 103-112): present only when
TURN_URL, TURN_USERNAME and TURN_PASSWORD are all set (non-empty after trim). -/
def staticTurnList (env : Env) : List IceServer :=
  if trimS env.turnUrl ≠ "" ∧ trimS env.turnUsername ≠ "" ∧ trimS env.turnPassword ≠ "" then
    [⟨Sum.inl (trimS env.turnUrl), some (trimS env.turnUsername),
      some (trimS env.turnPassword)⟩]
  else []

/-- The body of a GET /config response (index.ts line 115). -/
structure ConfigResponse where
  iceServers : List IceServer
  publicBaseUrl : String
deriving DecidableEq

/-- GET /config handler (index.ts lines 86-116): STUN first, then dynamic
Xirsys servers when the fetch yields a non-empty list, else the static TURN
fallback. The request always answers with a JSON body; no failure of the
credential fetch escapes. -/
def getConfig (env : Env) (cache : Option XirsysCache) (now : Int)
    (o : FetchOutcome) : ConfigResponse × Option XirsysCache :=
  (⟨match (fetchXirsysIceServers env.xcfg cache now o).1 with
    | some l => if 0 < l.length then stunBase env ++ l else stunBase env ++ staticTurnList env
    | none => stunBase env ++ staticTurnList env,
    env.publicBaseUrl⟩,
   (fetchXirsysIceServers env.xcfg cache now o).2)

/-- Per-socket data (socket.data.roomId / socket.data.displayName); both
fields start out undefined. -/
structure SockData where
  roomId : Option String
  displayName : Option String
deriving DecidableEq

/-- The whole mutable server state: the room registry roomIdToParticipants,
each socket's socket.io room list (what socket.to uses), the per-socket data,
and the credential cache. -/
structure SrvState where
  rooms : List (String × List (String × String))
  sioRooms : List (String × List String)
  sdata : List (String × SockData)
  cache : Option XirsysCache
deriving DecidableEq

/-- The empty initial server state. -/
def initState : SrvState := ⟨[], [], [], none⟩

/-- socket.join(roomId): idempotent insertion into the socket's room list. -/
def sioJoin (sid roomId : String) (l : List (String × List String)) :
    List (String × List String) :=
  match lookupA sid l with
  | none => setA sid [roomId] l
  | some rs => if roomId ∈ rs then l else setA sid (rs ++ [roomId]) l

/-- socket.leave(roomId): removal from the socket's room list. -/
def sioLeave (sid roomId : String) (l : List (String × List String)) :
    List (String × List String) :=
  match lookupA sid l with
  | none => l
  | some rs => setA sid (rs.filter (fun r => r ≠ roomId)) l

/-- The recipients of socket.to(roomId).emit(...) issued by sender: every
socket currently in the socket.io room roomId, except the sender itself. -/
def recipsL (l : List (String × List String)) (roomId sender : String) : List String :=
  l.filterMap (fun p => if p.1 ≠ sender ∧ roomId ∈ p.2 then some p.1 else none)

/-- The messages the server emits to individual sockets. -/
inductive RelayKind where
  | offer
  | answer
  | iceCandidate
deriving DecidableEq

/-- One outbound server→client event, tagged with the receiving socket. -/
inductive OutEvent where
  | errorMessage (dest msg : String)
  | roomFull (dest roomId : String)
  | peerJoined (dest socketId displayName : String)
  | joinedRoom (dest roomId : String) (peers : List (String × String))
  | relayMsg (kind : RelayKind) (dest fromId payload : String)
  | peerLeft (dest socketId : String)
deriving DecidableEq

/-- displayName || "Guest" (index.ts line 159). -/
def guestName (n : String) : String := if n = "" then "Guest" else n

/-- The participants map of a room as the join handler reads it
(index.ts line 154): the existing map, or a fresh empty one. -/
def roomParts (st : SrvState) (roomId : String) : List (String × String) :=
  (lookupA roomId st.rooms).getD []

/-- The server state after the accepting branch of join_room
(index.ts lines 159-163): participant added (or renamed in place), room map
stored back, socket.io join, and socket.data updated. -/
def joinAccept (st : SrvState) (sid roomId nm : String) : SrvState :=
  ⟨setA roomId (setA sid nm (roomParts st roomId)) st.rooms,
   sioJoin sid roomId st.sioRooms,
   setA sid ⟨some roomId, some nm⟩ st.sdata, st.cache⟩

/-- The events emitted by the accepting branch of join_room
(index.ts lines 165-175): peer_joined to the other room members, then
joined_room to the joiner with the other members in insertion order. -/
def joinEvents (st : SrvState) (sid roomId nm : String) : List OutEvent :=
  (recipsL (joinAccept st sid roomId nm).sioRooms roomId sid).map
      (fun t => OutEvent.peerJoined t sid nm)
    ++ [OutEvent.joinedRoom sid roomId
          ((setA sid nm (roomParts st roomId)).filter (fun p => p.1 ≠ sid))]

/-- The join_room handler (index.ts lines 149-176). -/
def joinRoom (st : SrvState) (sid roomId displayName : String) :
    SrvState × List OutEvent :=
  if roomId = "" then (st, [OutEvent.errorMessage sid "Invalid roomId"])
  else if 2 ≤ (roomParts st roomId).length then (st, [OutEvent.roomFull sid roomId])
  else (joinAccept st sid roomId (guestName displayName),
        joinEvents st sid roomId (guestName displayName))

/-- The three identical relay handlers for offer / answer / ice_candidate
(index.ts lines 178-191): guard on a non-empty roomId, then broadcast the
payload, tagged with the sender's socket id, to the socket.io room. -/
def relayH (kind : RelayKind) (st : SrvState) (sid roomId payload : String) :
    SrvState × List OutEvent :=
  if roomId = "" then (st, [])
  else (st, (recipsL st.sioRooms roomId sid).map
              (fun t => OutEvent.relayMsg kind t sid payload))

/-- The leave_room handler (index.ts lines 193-199). Note: it neither deletes
an emptied room entry nor clears socket.data.roomId, and it broadcasts
peer_left unconditionally. -/
def leaveRooms (st : SrvState) (sid roomId : String) :
    List (String × List (String × String)) :=
  match lookupA roomId st.rooms with
  | none => st.rooms
  | some parts => setA roomId (eraseA sid parts) st.rooms

/-- The server state after leave_room: socket.io leave plus participant
removal; the room entry itself, socket.data and the cache are untouched. -/
def leaveState (st : SrvState) (sid roomId : String) : SrvState :=
  ⟨leaveRooms st sid roomId, sioLeave sid roomId st.sioRooms, st.sdata, st.cache⟩

def leaveRoom (st : SrvState) (sid roomId : String) : SrvState × List OutEvent :=
  if roomId = "" then (st, [])
  else (leaveState st sid roomId,
        (recipsL (leaveState st sid roomId).sioRooms roomId sid).map
          (fun t => OutEvent.peerLeft t sid))

/-- The disconnect handler (index.ts lines 201-211). socket.io has already
removed the socket from its rooms when the handler runs; the handler removes
the socket from the room recorded in socket.data.roomId, broadcasts peer_left,
and deletes the room entry when it became empty. -/
def sdataRoomOf (st : SrvState) (sid : String) : Option String :=
  match lookupA sid st.sdata with
  | some d => d.roomId
  | none => none

/-- The room registry after the disconnect handler removed the socket from the
room recorded in socket.data.roomId, deleting the room entry when it became
empty (index.ts lines 204-209). -/
def discRooms (st : SrvState) (sid roomId : String) :
    List (String × List (String × String)) :=
  match lookupA roomId st.rooms with
  | none => st.rooms
  | some parts =>
      if (eraseA sid parts).length = 0 then eraseA roomId st.rooms
      else setA roomId (eraseA sid parts) st.rooms

/-- The server state after a disconnect whose socket.data.roomId was set. -/
def discState (st : SrvState) (sid roomId : String) : SrvState :=
  ⟨discRooms st sid roomId, eraseA sid st.sioRooms, eraseA sid st.sdata, st.cache⟩

def disconnectH (st : SrvState) (sid : String) : SrvState × List OutEvent :=
  match sdataRoomOf st sid with
  | none => (⟨st.rooms, eraseA sid st.sioRooms, eraseA sid st.sdata, st.cache⟩, [])
  | some roomId =>
      (discState st sid roomId,
       (recipsL (discState st sid roomId).sioRooms roomId sid).map
         (fun t => OutEvent.peerLeft t sid))

/-- One inbound socket event. -/
inductive Op where
  | join (sid roomId displayName : String)
  | leave (sid roomId : String)
  | disconnect (sid : String)
  | offer (sid roomId payload : String)
  | answer (sid roomId payload : String)
  | candidate (sid roomId payload : String)
deriving DecidableEq

/-- Dispatch of one inbound event to its handler. -/
def step (st : SrvState) : Op → SrvState × List OutEvent
  | Op.join sid r n => joinRoom st sid r n
  | Op.leave sid r => leaveRoom st sid r
  | Op.disconnect sid => disconnectH st sid
  | Op.offer sid r p => relayH RelayKind.offer st sid r p
  | Op.answer sid r p => relayH RelayKind.answer st sid r p
  | Op.candidate sid r p => relayH RelayKind.iceCandidate st sid r p

/-- The server state after a sequence of events, starting from st. -/
def runFrom (st : SrvState) : List Op → SrvState
  | [] => st
  | op :: rest => runFrom (step st op).1 rest

/-- The server state after a sequence of events from the initial state. -/
def run (ops : List Op) : SrvState := runFrom initState ops

/-- All events emitted while processing a sequence of inbound events. -/
def traceFrom (st : SrvState) : List Op → List OutEvent
  | [] => []
  | op :: rest => (step st op).2 ++ traceFrom (step st op).1 rest

/-- All events emitted from the initial state. -/
def trace (ops : List Op) : List OutEvent := traceFrom initState ops


/-!
## Reachability invariant

Every socket.io room membership is backed by a registry membership: if socket
sid is in socket.io room r, then room r exists in roomIdToParticipants and sid
is one of its participants. Together with key-uniqueness of the two maps and
the capacity bound, this is preserved by every handler.
-/

theorem sioJoin_none {sid r : String} {l : List (String × List String)}
    (h : lookupA sid l = none) : sioJoin sid r l = setA sid [r] l := by
  unfold sioJoin
  rw [h]

theorem sioJoin_some {sid r : String} {l : List (String × List String)}
    {rs : List String} (h : lookupA sid l = some rs) :
    sioJoin sid r l = if r ∈ rs then l else setA sid (rs ++ [r]) l := by
  unfold sioJoin
  rw [h]

theorem sioLeave_none {sid r : String} {l : List (String × List String)}
    (h : lookupA sid l = none) : sioLeave sid r l = l := by
  unfold sioLeave
  rw [h]

theorem sioLeave_some {sid r : String} {l : List (String × List String)}
    {rs : List String} (h : lookupA sid l = some rs) :
    sioLeave sid r l = setA sid (rs.filter (fun x => x ≠ r)) l := by
  unfold sioLeave
  rw [h]

theorem leaveRooms_none {st : SrvState} {sid roomId : String}
    (h : lookupA roomId st.rooms = none) : leaveRooms st sid roomId = st.rooms := by
  unfold leaveRooms
  rw [h]

theorem leaveRooms_some {st : SrvState} {sid roomId : String}
    {parts : List (String × String)} (h : lookupA roomId st.rooms = some parts) :
    leaveRooms st sid roomId = setA roomId (eraseA sid parts) st.rooms := by
  unfold leaveRooms
  rw [h]

theorem discRooms_none {st : SrvState} {sid roomId : String}
    (h : lookupA roomId st.rooms = none) : discRooms st sid roomId = st.rooms := by
  unfold discRooms
  rw [h]

theorem discRooms_some {st : SrvState} {sid roomId : String}
    {parts : List (String × String)} (h : lookupA roomId st.rooms = some parts) :
    discRooms st sid roomId =
      if (eraseA sid parts).length = 0 then eraseA roomId st.rooms
      else setA roomId (eraseA sid parts) st.rooms := by
  unfold discRooms
  rw [h]

theorem lookupA_sioJoin_ne {t sid : String} (r : String) (h : t ≠ sid)
    (l : List (String × List String)) :
    lookupA t (sioJoin sid r l) = lookupA t l := by
  cases hl : lookupA sid l with
  | none =>
    rw [sioJoin_none hl]
    exact lookupA_setA_ne _ h l
  | some rs =>
    rw [sioJoin_some hl]
    by_cases hr : r ∈ rs
    · rw [if_pos hr]
    · rw [if_neg hr]
      exact lookupA_setA_ne _ h l

theorem sioJoin_self_spec (sid r : String) (l : List (String × List String)) :
    ∃ rs', lookupA sid (sioJoin sid r l) = some rs' ∧
      ∀ x ∈ rs', x = r ∨ ∃ rs, lookupA sid l = some rs ∧ x ∈ rs := by
  cases hl : lookupA sid l with
  | none =>
    rw [sioJoin_none hl]
    refine ⟨[r], lookupA_setA_self _ _ _, ?_⟩
    intro x hx
    exact Or.inl (List.mem_singleton.mp hx)
  | some rs =>
    rw [sioJoin_some hl]
    by_cases hr : r ∈ rs
    · rw [if_pos hr]
      exact ⟨rs, hl, fun x hx => Or.inr ⟨rs, rfl, hx⟩⟩
    · rw [if_neg hr]
      refine ⟨rs ++ [r], lookupA_setA_self _ _ _, ?_⟩
      intro x hx
      rcases List.mem_append.mp hx with h | h
      · exact Or.inr ⟨rs, rfl, h⟩
      · exact Or.inl (List.mem_singleton.mp h)

theorem lookupA_sioLeave_ne {t sid : String} (r : String) (h : t ≠ sid)
    (l : List (String × List String)) :
    lookupA t (sioLeave sid r l) = lookupA t l := by
  cases hl : lookupA sid l with
  | none => rw [sioLeave_none hl]
  | some rs =>
    rw [sioLeave_some hl]
    exact lookupA_setA_ne _ h l

theorem sioLeave_self_spec {sid r : String} {l : List (String × List String)}
    {rs' : List String} (h : lookupA sid (sioLeave sid r l) = some rs') :
    ∃ rs, lookupA sid l = some rs ∧ rs' = rs.filter (fun x => x ≠ r) := by
  cases hl : lookupA sid l with
  | none =>
    rw [sioLeave_none hl, hl] at h
    exact Option.noConfusion h
  | some rs =>
    rw [sioLeave_some hl, lookupA_setA_self] at h
    exact ⟨rs, rfl, (Option.some_inj.mp h).symm⟩

theorem nodup_sioJoin (sid r : String) {l : List (String × List String)}
    (h : (keysA l).Nodup) : (keysA (sioJoin sid r l)).Nodup := by
  cases hl : lookupA sid l with
  | none =>
    rw [sioJoin_none hl]
    exact nodup_keysA_setA _ _ h
  | some rs =>
    rw [sioJoin_some hl]
    by_cases hr : r ∈ rs
    · rw [if_pos hr]
      exact h
    · rw [if_neg hr]
      exact nodup_keysA_setA _ _ h

theorem nodup_sioLeave (sid r : String) {l : List (String × List String)}
    (h : (keysA l).Nodup) : (keysA (sioLeave sid r l)).Nodup := by
  cases hl : lookupA sid l with
  | none =>
    rw [sioLeave_none hl]
    exact h
  | some rs =>
    rw [sioLeave_some hl]
    exact nodup_keysA_setA _ _ h

/-- Socket.io membership is backed by registry membership. -/
def SioInv (st : SrvState) : Prop :=
  ∀ sid rs, lookupA sid st.sioRooms = some rs →
    ∀ r ∈ rs, ∃ parts, lookupA r st.rooms = some parts ∧ sid ∈ keysA parts

/-- The reachability invariant of the server state. -/
def StInv (st : SrvState) : Prop :=
  (keysA st.rooms).Nodup ∧ (keysA st.sioRooms).Nodup ∧ SioInv st ∧
    ∀ p ∈ st.rooms, p.2.length ≤ 2

theorem stInv_init : StInv initState := by
  refine ⟨List.nodup_nil, List.nodup_nil, ?_, ?_⟩
  · intro sid rs h
    simp [initState, lookupA] at h
  · intro p hp
    simp [initState] at hp

theorem sioInv_joinAccept (st : SrvState) (sid r nm : String)
    (hinv : SioInv st) : SioInv (joinAccept st sid r nm) := by
  intro tid rs hlk r' hr'
  have hrooms : (joinAccept st sid r nm).rooms
      = setA r (setA sid nm (roomParts st r)) st.rooms := rfl
  by_cases ht : tid = sid
  · subst ht
    obtain ⟨rs2, hlk2, hspec⟩ := sioJoin_self_spec tid r st.sioRooms
    have hrs : rs2 = rs := Option.some_inj.mp (hlk2.symm.trans hlk)
    subst hrs
    rcases hspec r' hr' with hc | ⟨rs0, hl0, hmem0⟩
    · subst hc
      rw [hrooms]
      exact ⟨setA tid nm (roomParts st r'), lookupA_setA_self _ _ _,
             self_mem_keysA_setA _ _ _⟩
    · by_cases hc : r' = r
      · subst hc
        rw [hrooms]
        exact ⟨setA tid nm (roomParts st r'), lookupA_setA_self _ _ _,
               self_mem_keysA_setA _ _ _⟩
      · obtain ⟨parts0, hp0, hk0⟩ := hinv tid rs0 hl0 r' hmem0
        rw [hrooms]
        rw [lookupA_setA_ne _ hc]
        exact ⟨parts0, hp0, hk0⟩
  · have hlk' : lookupA tid st.sioRooms = some rs := by
      rw [← lookupA_sioJoin_ne r ht st.sioRooms]
      exact hlk
    obtain ⟨parts0, hp0, hk0⟩ := hinv tid rs hlk' r' hr'
    by_cases hc : r' = r
    · subst hc
      rw [hrooms, lookupA_setA_self]
      have hparts : roomParts st r' = parts0 := by
        unfold roomParts
        rw [hp0]
        rfl
      refine ⟨setA sid nm (roomParts st r'), rfl, ?_⟩
      rw [hparts]
      exact mem_keysA_setA _ _ hk0
    · rw [hrooms, lookupA_setA_ne _ hc]
      exact ⟨parts0, hp0, hk0⟩

theorem sioInv_leaveState (st : SrvState) (sid r : String)
    (hinv : SioInv st) : SioInv (leaveState st sid r) := by
  intro tid rs hlk r' hr'
  have hrooms : (leaveState st sid r).rooms = leaveRooms st sid r := rfl
  by_cases ht : tid = sid
  · subst ht
    obtain ⟨rs0, hl0, hfil⟩ := sioLeave_self_spec hlk
    subst hfil
    have hmem := List.mem_filter.mp hr'
    have hne : r' ≠ r := by
      have h2 := hmem.2
      simpa using h2
    obtain ⟨parts0, hp0, hk0⟩ := hinv tid rs0 hl0 r' hmem.1
    rw [hrooms]
    cases hl : lookupA r st.rooms with
    | none =>
      rw [leaveRooms_none hl]
      exact ⟨parts0, hp0, hk0⟩
    | some parts =>
      rw [leaveRooms_some hl, lookupA_setA_ne _ hne]
      exact ⟨parts0, hp0, hk0⟩
  · have hlk' : lookupA tid st.sioRooms = some rs := by
      rw [← lookupA_sioLeave_ne r ht st.sioRooms]
      exact hlk
    obtain ⟨parts0, hp0, hk0⟩ := hinv tid rs hlk' r' hr'
    rw [hrooms]
    cases hl : lookupA r st.rooms with
    | none =>
      rw [leaveRooms_none hl]
      exact ⟨parts0, hp0, hk0⟩
    | some parts =>
      rw [leaveRooms_some hl]
      by_cases hc : r' = r
      · subst hc
        rw [lookupA_setA_self]
        have hparts : parts = parts0 := Option.some_inj.mp (hl.symm.trans hp0)
        subst hparts
        exact ⟨eraseA sid parts, rfl, mem_keysA_eraseA ht hk0⟩
      · rw [lookupA_setA_ne _ hc]
        exact ⟨parts0, hp0, hk0⟩

theorem sioInv_discState (st : SrvState) (sid rd : String)
    (hnd : (keysA st.sioRooms).Nodup) (hinv : SioInv st) :
    SioInv (discState st sid rd) := by
  intro tid rs hlk r' hr'
  have hsio : (discState st sid rd).sioRooms = eraseA sid st.sioRooms := rfl
  by_cases ht : tid = sid
  · subst ht
    rw [hsio, lookupA_eraseA_self hnd] at hlk
    exact Option.noConfusion hlk
  · rw [hsio, lookupA_eraseA_ne ht] at hlk
    obtain ⟨parts0, hp0, hk0⟩ := hinv tid rs hlk r' hr'
    have hrooms : (discState st sid rd).rooms = discRooms st sid rd := rfl
    rw [hrooms]
    cases hl : lookupA rd st.rooms with
    | none =>
      rw [discRooms_none hl]
      exact ⟨parts0, hp0, hk0⟩
    | some parts =>
      rw [discRooms_some hl]
      by_cases hc : r' = rd
      · subst hc
        have hparts : parts = parts0 := Option.some_inj.mp (hl.symm.trans hp0)
        subst hparts
        have hmem : tid ∈ keysA (eraseA sid parts) := mem_keysA_eraseA ht hk0
        have hnz : ¬ (eraseA sid parts).length = 0 := by
          intro hz
          rw [List.length_eq_zero] at hz
          rw [hz] at hmem
          simp [keysA] at hmem
        rw [if_neg hnz, lookupA_setA_self]
        exact ⟨eraseA sid parts, rfl, hmem⟩
      · by_cases hz : (eraseA sid parts).length = 0
        · rw [if_pos hz, lookupA_eraseA_ne hc]
          exact ⟨parts0, hp0, hk0⟩
        · rw [if_neg hz, lookupA_setA_ne _ hc]
          exact ⟨parts0, hp0, hk0⟩

theorem relayH_state (kind : RelayKind) (st : SrvState) (sid roomId payload : String) :
    (relayH kind st sid roomId payload).1 = st := by
  unfold relayH
  by_cases h : roomId = ""
  · rw [if_pos h]
  · rw [if_neg h]

theorem counts_joinAccept (st : SrvState) (sid r nm : String)
    (hfull : ¬ 2 ≤ (roomParts st r).length)
    (h4 : ∀ p ∈ st.rooms, p.2.length ≤ 2) :
    ∀ p ∈ (joinAccept st sid r nm).rooms, p.2.length ≤ 2 := by
  intro p hp
  have hp' : p ∈ setA r (setA sid nm (roomParts st r)) st.rooms := hp
  rcases mem_setA hp' with h | h
  · rw [h]
    have h1 := length_setA_le sid nm (roomParts st r)
    have h2 : (roomParts st r).length ≤ 1 := by omega
    simpa using Nat.le_trans h1 (by omega)
  · exact h4 p h

theorem counts_leaveState (st : SrvState) (sid r : String)
    (h4 : ∀ p ∈ st.rooms, p.2.length ≤ 2) :
    ∀ p ∈ (leaveState st sid r).rooms, p.2.length ≤ 2 := by
  intro p hp
  have hp' : p ∈ leaveRooms st sid r := hp
  cases hl : lookupA r st.rooms with
  | none =>
    rw [leaveRooms_none hl] at hp'
    exact h4 p hp'
  | some parts =>
    rw [leaveRooms_some hl] at hp'
    rcases mem_setA hp' with h | h
    · rw [h]
      have hmem : (r, parts) ∈ st.rooms := lookupA_mem hl
      have hlen : parts.length ≤ 2 := h4 (r, parts) hmem
      have := length_eraseA_le sid parts
      simpa using Nat.le_trans this hlen
    · exact h4 p h

theorem counts_discState (st : SrvState) (sid rd : String)
    (h4 : ∀ p ∈ st.rooms, p.2.length ≤ 2) :
    ∀ p ∈ (discState st sid rd).rooms, p.2.length ≤ 2 := by
  intro p hp
  have hp' : p ∈ discRooms st sid rd := hp
  cases hl : lookupA rd st.rooms with
  | none =>
    rw [discRooms_none hl] at hp'
    exact h4 p hp'
  | some parts =>
    rw [discRooms_some hl] at hp'
    by_cases hz : (eraseA sid parts).length = 0
    · rw [if_pos hz] at hp'
      exact h4 p (mem_eraseA hp')
    · rw [if_neg hz] at hp'
      rcases mem_setA hp' with h | h
      · rw [h]
        have hmem : (rd, parts) ∈ st.rooms := lookupA_mem hl
        have hlen : parts.length ≤ 2 := h4 (rd, parts) hmem
        have := length_eraseA_le sid parts
        simpa using Nat.le_trans this hlen
      · exact h4 p h

theorem sioInv_eraseSid (st : SrvState) (sid : String)
    (sd : List (String × SockData)) (c : Option XirsysCache)
    (hnd : (keysA st.sioRooms).Nodup) (hinv : SioInv st) :
    SioInv ⟨st.rooms, eraseA sid st.sioRooms, sd, c⟩ := by
  intro tid rs hlk r' hr'
  by_cases ht : tid = sid
  · subst ht
    have : lookupA tid (eraseA tid st.sioRooms) = none := lookupA_eraseA_self hnd
    rw [show (SrvState.mk st.rooms (eraseA tid st.sioRooms) sd c).sioRooms
          = eraseA tid st.sioRooms from rfl] at hlk
    rw [this] at hlk
    exact Option.noConfusion hlk
  · rw [show (SrvState.mk st.rooms (eraseA sid st.sioRooms) sd c).sioRooms
          = eraseA sid st.sioRooms from rfl, lookupA_eraseA_ne ht] at hlk
    exact hinv tid rs hlk r' hr'

theorem stInv_joinRoom (st : SrvState) (sid r n : String) (h : StInv st) :
    StInv (joinRoom st sid r n).1 := by
  obtain ⟨h1, h2, h3, h4⟩ := h
  unfold joinRoom
  by_cases hr : r = ""
  · rw [if_pos hr]
    exact ⟨h1, h2, h3, h4⟩
  · rw [if_neg hr]
    by_cases hfull : 2 ≤ (roomParts st r).length
    · rw [if_pos hfull]
      exact ⟨h1, h2, h3, h4⟩
    · rw [if_neg hfull]
      exact ⟨nodup_keysA_setA _ _ h1, nodup_sioJoin _ _ h2,
             sioInv_joinAccept st sid r (guestName n) h3,
             counts_joinAccept st sid r (guestName n) hfull h4⟩

theorem nodup_leaveRooms (st : SrvState) (sid r : String)
    (h1 : (keysA st.rooms).Nodup) : (keysA (leaveRooms st sid r)).Nodup := by
  cases hl : lookupA r st.rooms with
  | none =>
    rw [leaveRooms_none hl]
    exact h1
  | some parts =>
    rw [leaveRooms_some hl]
    exact nodup_keysA_setA _ _ h1

theorem nodup_discRooms (st : SrvState) (sid rd : String)
    (h1 : (keysA st.rooms).Nodup) : (keysA (discRooms st sid rd)).Nodup := by
  cases hl : lookupA rd st.rooms with
  | none =>
    rw [discRooms_none hl]
    exact h1
  | some parts =>
    rw [discRooms_some hl]
    by_cases hz : (eraseA sid parts).length = 0
    · rw [if_pos hz]
      exact nodup_keysA_eraseA _ h1
    · rw [if_neg hz]
      exact nodup_keysA_setA _ _ h1

theorem stInv_leaveRoom (st : SrvState) (sid r : String) (h : StInv st) :
    StInv (leaveRoom st sid r).1 := by
  obtain ⟨h1, h2, h3, h4⟩ := h
  unfold leaveRoom
  by_cases hr : r = ""
  · rw [if_pos hr]
    exact ⟨h1, h2, h3, h4⟩
  · rw [if_neg hr]
    exact ⟨nodup_leaveRooms st sid r h1, nodup_sioLeave _ _ h2,
           sioInv_leaveState st sid r h3, counts_leaveState st sid r h4⟩

theorem stInv_disconnectH (st : SrvState) (sid : String) (h : StInv st) :
    StInv (disconnectH st sid).1 := by
  obtain ⟨h1, h2, h3, h4⟩ := h
  unfold disconnectH
  cases hrd : sdataRoomOf st sid with
  | none =>
    exact ⟨h1, nodup_keysA_eraseA _ h2,
           sioInv_eraseSid st sid (eraseA sid st.sdata) st.cache h2 h3, h4⟩
  | some rd =>
    exact ⟨nodup_discRooms st sid rd h1, nodup_keysA_eraseA _ h2,
           sioInv_discState st sid rd h2 h3, counts_discState st sid rd h4⟩

theorem stInv_step (st : SrvState) (op : Op) (h : StInv st) : StInv (step st op).1 := by
  cases op with
  | join sid r n => exact stInv_joinRoom st sid r n h
  | leave sid r => exact stInv_leaveRoom st sid r h
  | disconnect sid => exact stInv_disconnectH st sid h
  | offer sid r p =>
    rw [show step st (Op.offer sid r p) = relayH RelayKind.offer st sid r p from rfl,
        relayH_state]
    exact h
  | answer sid r p =>
    rw [show step st (Op.answer sid r p) = relayH RelayKind.answer st sid r p from rfl,
        relayH_state]
    exact h
  | candidate sid r p =>
    rw [show step st (Op.candidate sid r p) = relayH RelayKind.iceCandidate st sid r p from rfl,
        relayH_state]
    exact h

theorem stInv_runFrom : ∀ (ops : List Op) (st : SrvState), StInv st → StInv (runFrom st ops) := by
  intro ops
  induction ops with
  | nil =>
    intro st h
    exact h
  | cons op rest ih =>
    intro st h
    exact ih (step st op).1 (stInv_step st op h)

/-- Every state reachable from the initial state satisfies the invariant. -/
theorem stInv_run (ops : List Op) : StInv (run ops) :=
  stInv_runFrom ops initState stInv_init

/-!
## Helper lemmas for the claim theorems
-/

theorem disconnectH_none {st : SrvState} {sid : String}
    (h : sdataRoomOf st sid = none) :
    disconnectH st sid
      = (⟨st.rooms, eraseA sid st.sioRooms, eraseA sid st.sdata, st.cache⟩, []) := by
  unfold disconnectH
  rw [h]

theorem disconnectH_some {st : SrvState} {sid rd : String}
    (h : sdataRoomOf st sid = some rd) :
    disconnectH st sid
      = (discState st sid rd,
         (recipsL (discState st sid rd).sioRooms rd sid).map
           (fun t => OutEvent.peerLeft t sid)) := by
  unfold disconnectH
  rw [h]

theorem joinRoom_accept {st : SrvState} {sid roomId n : String}
    (hr : roomId ≠ "") (hfull : ¬ 2 ≤ (roomParts st roomId).length) :
    joinRoom st sid roomId n
      = (joinAccept st sid roomId (guestName n),
         joinEvents st sid roomId (guestName n)) := by
  unfold joinRoom
  rw [if_neg hr, if_neg hfull]

theorem fetchXirsys_unconfigured {cfg : XirsysConfig} (cache : Option XirsysCache)
    (now : Int) (o : FetchOutcome)
    (h : cfg.ident = "" ∨ cfg.secret = "" ∨ cfg.channel = "") :
    fetchXirsysIceServers cfg cache now o = (none, cache) := by
  unfold fetchXirsysIceServers
  rw [if_pos h]

theorem fetchXirsys_configured_some {cfg : XirsysConfig} (c : XirsysCache)
    (now : Int) (o : FetchOutcome)
    (h : ¬ (cfg.ident = "" ∨ cfg.secret = "" ∨ cfg.channel = "")) :
    fetchXirsysIceServers cfg (some c) now o
      = if now - c.fetchedAt < cfg.ttlSeconds * 1000 then (some c.iceServers, some c)
        else attemptFetch (some c) now o := by
  unfold fetchXirsysIceServers
  rw [if_neg h]

theorem fetchXirsys_configured_none {cfg : XirsysConfig} (now : Int) (o : FetchOutcome)
    (h : ¬ (cfg.ident = "" ∨ cfg.secret = "" ∨ cfg.channel = "")) :
    fetchXirsysIceServers cfg none now o = attemptFetch none now o := by
  unfold fetchXirsysIceServers
  rw [if_neg h]

theorem attemptFetch_payload (cache : Option XirsysCache) (now : Int)
    (l : List IceServer) :
    attemptFetch cache now (FetchOutcome.payload l)
      = if 0 < l.length then (some l, some ⟨l, now⟩) else (none, cache) := rfl

theorem mem_recipsL {l : List (String × List String)} {roomId sender t : String}
    {rs : List String} (hmem : (t, rs) ∈ l) (ht : t ≠ sender) (hr : roomId ∈ rs) :
    t ∈ recipsL l roomId sender := by
  unfold recipsL
  refine List.mem_filterMap.mpr ⟨(t, rs), hmem, ?_⟩
  rw [if_pos ⟨ht, hr⟩]

theorem recipsL_mem {l : List (String × List String)} {roomId sender t : String}
    (h : t ∈ recipsL l roomId sender) :
    ∃ rs, (t, rs) ∈ l ∧ t ≠ sender ∧ roomId ∈ rs := by
  unfold recipsL at h
  rcases List.mem_filterMap.mp h with ⟨p, hp, hf⟩
  by_cases hc : p.1 ≠ sender ∧ roomId ∈ p.2
  · rw [if_pos hc] at hf
    have he : p.1 = t := Option.some_inj.mp hf
    subst he
    exact ⟨p.2, hp, hc.1, hc.2⟩
  · rw [if_neg hc] at hf
    exact Option.noConfusion hf

theorem recipsL_eraseA_self (sid rid : String) :
    ∀ (l : List (String × List String)),
      recipsL (eraseA sid l) rid sid = recipsL l rid sid := by
  intro l
  induction l with
  | nil => rfl
  | cons p rest ih =>
    by_cases hp : p.1 = sid
    · rw [show eraseA sid (p :: rest) = rest from by simp [eraseA, hp]]
      unfold recipsL
      rw [List.filterMap_cons]
      rw [if_neg (by simp [hp])]
    · rw [show eraseA sid (p :: rest) = p :: eraseA sid rest from by simp [eraseA, hp]]
      unfold recipsL at ih ⊢
      rw [List.filterMap_cons, List.filterMap_cons, ih]

theorem filter_keys_ne {sid : String} :
    ∀ {parts : List (String × String)}, sid ∉ keysA parts →
      parts.filter (fun p => p.1 ≠ sid) = parts := by
  intro parts
  induction parts with
  | nil => intro h; rfl
  | cons p rest ih =>
    intro h
    rw [keysA_cons, List.mem_cons] at h
    push_neg at h
    rw [List.filter_cons]
    rw [if_pos (by simpa using Ne.symm h.1)]
    rw [ih h.2]

theorem filter_ne_of_not_mem {r : String} :
    ∀ {rs : List String}, r ∉ rs → rs.filter (fun x => x ≠ r) = rs := by
  intro rs
  induction rs with
  | nil => intro h; rfl
  | cons a rest ih =>
    intro h
    rw [List.mem_cons] at h
    push_neg at h
    rw [List.filter_cons]
    rw [if_pos (by simpa using Ne.symm h.1)]
    rw [ih h.2]

/-- The per-connection property that a socket is currently in the given
socket.io room (how the relay and notifications reach it). -/
def connectedInRoom (st : SrvState) (t roomId : String) : Prop :=
  ∃ rs, lookupA t st.sioRooms = some rs ∧ roomId ∈ rs

/-!
## Claim theorems
-/

/-- Claim C10: handling an offer, answer, or candidate message never modifies
server state — the room map (with all memberships and display names), every
socket's socket.io rooms, the per-connection data (room back-reference and
display name) and the credential cache are identical before and after the
relay operation, for every message and every server state. -/
theorem relay_never_modifies_state (kind : RelayKind) (st : SrvState)
    (sid roomId payload : String) :
    (relayH kind st sid roomId payload).1 = st := by
  unfold relayH
  by_cases h : roomId = ""
  · rw [if_pos h]
  · rw [if_neg h]

/-- Claim C2: a join request for a room that already has 2 members is answered
with a room_full report to the requesting connection only, and the whole
registry state (room map, memberships, the requester's per-connection data,
and the cache) is unchanged by the request. -/
theorem join_room_full_rejected (st : SrvState) (sid roomId n : String)
    (parts : List (String × String))
    (hr : roomId ≠ "")
    (hparts : lookupA roomId st.rooms = some parts)
    (hlen : parts.length = 2) :
    joinRoom st sid roomId n = (st, [OutEvent.roomFull sid roomId]) := by
  unfold joinRoom
  rw [if_neg hr]
  have hrp : roomParts st roomId = parts := by
    unfold roomParts
    rw [hparts]
    rfl
  rw [if_pos (by rw [hrp, hlen])]

/-- Witness for C2: C's join to the full room "x" answers room_full to C and
leaves the state identical. -/
theorem join_room_full_rejected_witness :
    joinRoom (run [Op.join "A" "x" "a", Op.join "B" "x" "b"]) "C" "x" "c"
      = (run [Op.join "A" "x" "a", Op.join "B" "x" "b"],
         [OutEvent.roomFull "C" "x"]) :=
  join_room_full_rejected (run [Op.join "A" "x" "a", Op.join "B" "x" "b"])
    "C" "x" "c" [("A", "a"), ("B", "b")] (by decide) (by decide) (by decide)

/-- Claim C7: for every offer / answer / candidate message, whenever the
target roomId is empty or unknown to the registry (in any reachable server
state), the relay forwards nothing to anyone and the state is unchanged. -/
theorem relay_unknown_room_no_delivery (ops : List Op) (kind : RelayKind)
    (sid roomId payload : String)
    (h : roomId = "" ∨ lookupA roomId (run ops).rooms = none) :
    relayH kind (run ops) sid roomId payload = (run ops, []) := by
  rcases h with h | h
  · unfold relayH
    rw [if_pos h]
  · unfold relayH
    by_cases hr : roomId = ""
    · rw [if_pos hr]
    · rw [if_neg hr]
      obtain ⟨h1, h2, h3, h4⟩ := stInv_run ops
      have hnil : recipsL (run ops).sioRooms roomId sid = [] := by
        apply filterMap_nil_of_none
        intro p hp
        by_cases hc : p.1 ≠ sid ∧ roomId ∈ p.2
        · exfalso
          have hlk : lookupA p.1 (run ops).sioRooms = some p.2 := mem_lookupA h2 hp
          obtain ⟨parts, hparts, _⟩ := h3 p.1 p.2 hlk roomId hc.2
          rw [h] at hparts
          exact Option.noConfusion hparts
        · rw [if_neg hc]
      rw [hnil]
      rfl

/-- Witness for C7: an offer addressed to the unknown room "x" in the initial
state is delivered to nobody. -/
theorem relay_unknown_room_no_delivery_witness :
    relayH RelayKind.offer (run []) "A" "x" "SDP" = (run [], []) :=
  relay_unknown_room_no_delivery [] RelayKind.offer "A" "x" "SDP"
    (Or.inr (by decide))

/-- Counterexample for C1: after the trace join(A,"x"); leave(A,"x"), the room
"x" is still present in the registry with zero members — the leave_room
handler never deletes an emptied room entry, so "a member count of 0 implies
the room's entry does not exist" is false as a statement about all sequences
of join/leave/disconnect operations. -/
theorem empty_room_survives_explicit_leave :
    lookupA "x" (run [Op.join "A" "x" "a", Op.leave "A" "x"]).rooms
      = some [] := by decide

/-- Claim C1 (amended): in every reachable state, every room present in the
registry has member count in the set 0 to 2; a room emptied by the disconnect
path is deleted from the registry; but a room emptied by an explicit
leave_room keeps its (now empty) registry entry. -/
theorem room_capacity_and_cleanup (ops : List Op) :
    (∀ p ∈ (run ops).rooms, p.2.length ≤ 2) ∧
    (∀ sid rd parts, sdataRoomOf (run ops) sid = some rd →
      lookupA rd (run ops).rooms = some parts →
      eraseA sid parts = [] →
      lookupA rd (disconnectH (run ops) sid).1.rooms = none) ∧
    (∀ sid rid parts, rid ≠ "" →
      lookupA rid (run ops).rooms = some parts →
      lookupA rid (leaveRoom (run ops) sid rid).1.rooms
        = some (eraseA sid parts)) := by
  obtain ⟨h1, h2, h3, h4⟩ := stInv_run ops
  refine ⟨h4, ?_, ?_⟩
  · intro sid rd parts hsd hparts hempty
    rw [disconnectH_some hsd]
    have hrooms : (discState (run ops) sid rd).rooms = discRooms (run ops) sid rd := rfl
    rw [hrooms, discRooms_some hparts, hempty]
    rw [if_pos (show (([] : List (String × String)).length = 0) from rfl)]
    exact lookupA_eraseA_self h1
  · intro sid rid parts hr hparts
    unfold leaveRoom
    rw [if_neg hr]
    have hrooms : (leaveState (run ops) sid rid).rooms = leaveRooms (run ops) sid rid := rfl
    rw [hrooms, leaveRooms_some hparts]
    exact lookupA_setA_self _ _ _

/-- Witness for C1 (amended): disconnect of the sole member deletes room "x",
while an explicit leave of the sole member keeps the empty entry. -/
theorem room_capacity_and_cleanup_witness :
    lookupA "x" (disconnectH (run [Op.join "A" "x" "a"]) "A").1.rooms = none ∧
    lookupA "x" (leaveRoom (run [Op.join "A" "x" "a"]) "A" "x").1.rooms = some [] := by
  constructor
  · exact (room_capacity_and_cleanup [Op.join "A" "x" "a"]).2.1 "A" "x"
      [("A", "a")] (by decide) (by decide) (by decide)
  · have h := (room_capacity_and_cleanup [Op.join "A" "x" "a"]).2.2 "A" "x"
      [("A", "a")] (by decide) (by decide)
    have he : eraseA "A" [("A", "a")] = ([] : List (String × String)) := by decide
    rw [he] at h
    exact h

/-- Claim C4: whatever the outcome of the external credential fetch
(unconfigured issuer, network error, non-success status, malformed response —
all the cases where it yields nothing), GET /config still produces its JSON
response whose iceServers list is exactly the static STUN entry followed by
the static TURN fallback, with the STUN servers first whenever any are
configured; the failure is never surfaced to the caller. -/
theorem config_fallback_on_fetch_failure (env : Env) (cache : Option XirsysCache)
    (now : Int) (o : FetchOutcome)
    (hfail : (fetchXirsysIceServers env.xcfg cache now o).1 = none) :
    (getConfig env cache now o).1.iceServers = stunBase env ++ staticTurnList env ∧
    (getConfig env cache now o).1.publicBaseUrl = env.publicBaseUrl ∧
    (stunList env ≠ [] →
      ((getConfig env cache now o).1.iceServers).take 1
        = [⟨Sum.inr (stunList env), none, none⟩]) := by
  have hresp : (getConfig env cache now o).1
      = ⟨stunBase env ++ staticTurnList env, env.publicBaseUrl⟩ := by
    unfold getConfig
    rw [hfail]
  refine ⟨by rw [hresp], by rw [hresp], ?_⟩
  intro hne
  rw [hresp]
  show (stunBase env ++ staticTurnList env).take 1 = _
  unfold stunBase
  rw [if_neg hne]
  rfl

/-- A sample environment with nothing configured: no Xirsys credentials, no
static TURN, default STUN. -/
def sampleEnv : Env := ⟨"", "", "", "", "http://localhost:8080", ⟨"", "", "", 600⟩⟩

/-- Witness for C4: with an unconfigured issuer and a network-error outcome,
/config still answers with exactly the default STUN entry. -/
theorem config_fallback_on_fetch_failure_witness :
    (getConfig sampleEnv none 0 FetchOutcome.networkError).1.iceServers
      = [⟨Sum.inr ["stun:stun.l.google.com:19302"], none, none⟩] := by
  have h := config_fallback_on_fetch_failure sampleEnv none 0
    FetchOutcome.networkError (by decide)
  rw [h.1]
  decide

/-- Claim C9: the credential cache is reused exactly while now minus fetchedAt
is below the TTL — with a configured issuer and an unexpired entry the call
returns the cached descriptors and leaves the cache untouched whatever the
network would have answered — and a successful refresh (expired or absent
entry, response carrying a non-empty server list) replaces the entire entry,
descriptor list and timestamp, wholesale, never merging with the previous
one. -/
theorem xirsys_cache_reuse_and_replace :
    (∀ (cfg : XirsysConfig) (c : XirsysCache) (now : Int) (o : FetchOutcome),
      cfg.ident ≠ "" → cfg.secret ≠ "" → cfg.channel ≠ "" →
      now - c.fetchedAt < cfg.ttlSeconds * 1000 →
      fetchXirsysIceServers cfg (some c) now o = (some c.iceServers, some c)) ∧
    (∀ (cfg : XirsysConfig) (cache : Option XirsysCache) (now : Int)
        (l : List IceServer),
      cfg.ident ≠ "" → cfg.secret ≠ "" → cfg.channel ≠ "" →
      (∀ c, cache = some c → ¬ now - c.fetchedAt < cfg.ttlSeconds * 1000) →
      l ≠ [] →
      fetchXirsysIceServers cfg cache now (FetchOutcome.payload l)
        = (some l, some ⟨l, now⟩)) := by
  constructor
  · intro cfg c now o hi hs hc hfresh
    rw [fetchXirsys_configured_some c now o (by simp [hi, hs, hc])]
    rw [if_pos hfresh]
  · intro cfg cache now l hi hs hc hstale hl
    have hlen : 0 < l.length := List.length_pos.mpr hl
    cases cache with
    | none =>
      rw [fetchXirsys_configured_none now (FetchOutcome.payload l) (by simp [hi, hs, hc])]
      rw [attemptFetch_payload, if_pos hlen]
    | some c =>
      rw [fetchXirsys_configured_some c now (FetchOutcome.payload l) (by simp [hi, hs, hc])]
      rw [if_neg (hstale c rfl)]
      rw [attemptFetch_payload, if_pos hlen]

/-- Witness for C9: a fresh cache entry is returned unchanged in the face of a
network error, and an expired one is wholesale-replaced by the fetched list. -/
theorem xirsys_cache_reuse_and_replace_witness :
    fetchXirsysIceServers ⟨"id", "sec", "ch", 600⟩
        (some ⟨[⟨Sum.inl "turn:a", some "u", some "p"⟩], 0⟩) 1000
        FetchOutcome.networkError
      = (some [⟨Sum.inl "turn:a", some "u", some "p"⟩],
         some ⟨[⟨Sum.inl "turn:a", some "u", some "p"⟩], 0⟩) ∧
    fetchXirsysIceServers ⟨"id", "sec", "ch", 600⟩
        (some ⟨[⟨Sum.inl "turn:a", some "u", some "p"⟩], 0⟩) 700000
        (FetchOutcome.payload [⟨Sum.inl "turn:b", some "u2", some "p2"⟩])
      = (some [⟨Sum.inl "turn:b", some "u2", some "p2"⟩],
         some ⟨[⟨Sum.inl "turn:b", some "u2", some "p2"⟩], 700000⟩) := by
  constructor
  · exact xirsys_cache_reuse_and_replace.1 ⟨"id", "sec", "ch", 600⟩
      ⟨[⟨Sum.inl "turn:a", some "u", some "p"⟩], 0⟩ 1000
      FetchOutcome.networkError (by decide) (by decide) (by decide) (by decide)
  · exact xirsys_cache_reuse_and_replace.2 ⟨"id", "sec", "ch", 600⟩
      (some ⟨[⟨Sum.inl "turn:a", some "u", some "p"⟩], 0⟩) 700000
      [⟨Sum.inl "turn:b", some "u2", some "p2"⟩] (by decide) (by decide)
      (by decide)
      (by
        intro c hc
        rw [Option.some_inj.mp hc.symm]
        decide)
      (by decide)

theorem relayH_events {kind : RelayKind} {st : SrvState} {sid roomId payload : String}
    (hr : roomId ≠ "") :
    relayH kind st sid roomId payload
      = (st, (recipsL st.sioRooms roomId sid).map
               (fun t => OutEvent.relayMsg kind t sid payload)) := by
  unfold relayH
  rw [if_neg hr]

theorem leaveRoom_ne {st : SrvState} {sid rid : String} (hr : rid ≠ "") :
    leaveRoom st sid rid
      = (leaveState st sid rid,
         (recipsL (leaveState st sid rid).sioRooms rid sid).map
           (fun t => OutEvent.peerLeft t sid)) := by
  unfold leaveRoom
  rw [if_neg hr]

/-- Claim C5: a successful join adds the joiner to the room (creating it if
absent) at the end of the insertion order, sends the joiner the room id with
the list of the other current members (itself excluded, insertion order), and
notifies each pre-existing (connected) member of the room that a new peer
joined. -/
theorem join_success_spec (st : SrvState) (sid roomId n : String)
    (hr : roomId ≠ "")
    (hfull : ¬ 2 ≤ (roomParts st roomId).length)
    (hfresh : sid ∉ keysA (roomParts st roomId))
    (hlive : ∀ t ∈ keysA (roomParts st roomId), connectedInRoom st t roomId) :
    lookupA roomId (joinRoom st sid roomId n).1.rooms
        = some (roomParts st roomId ++ [(sid, guestName n)]) ∧
    OutEvent.joinedRoom sid roomId (roomParts st roomId)
        ∈ (joinRoom st sid roomId n).2 ∧
    (∀ t ∈ keysA (roomParts st roomId),
      OutEvent.peerJoined t sid (guestName n) ∈ (joinRoom st sid roomId n).2) := by
  rw [joinRoom_accept hr hfull]
  refine ⟨?_, ?_, ?_⟩
  · show lookupA roomId
        (setA roomId (setA sid (guestName n) (roomParts st roomId)) st.rooms)
      = some (roomParts st roomId ++ [(sid, guestName n)])
    rw [lookupA_setA_self, setA_of_not_mem _ hfresh]
  · show OutEvent.joinedRoom sid roomId (roomParts st roomId)
      ∈ joinEvents st sid roomId (guestName n)
    unfold joinEvents
    have hfil : (setA sid (guestName n) (roomParts st roomId)).filter
        (fun p => p.1 ≠ sid) = roomParts st roomId := by
      rw [setA_of_not_mem _ hfresh, List.filter_append, filter_keys_ne hfresh]
      simp
    rw [hfil]
    exact List.mem_append.mpr (Or.inr (List.mem_singleton.mpr rfl))
  · intro t ht
    have htne : t ≠ sid := fun he => hfresh (he ▸ ht)
    obtain ⟨rs, hlk, hrin⟩ := hlive t ht
    show OutEvent.peerJoined t sid (guestName n)
      ∈ joinEvents st sid roomId (guestName n)
    unfold joinEvents
    apply List.mem_append.mpr
    left
    apply List.mem_map.mpr
    refine ⟨t, ?_, rfl⟩
    have hlk' : lookupA t (joinAccept st sid roomId (guestName n)).sioRooms
        = some rs := by
      rw [show (joinAccept st sid roomId (guestName n)).sioRooms
            = sioJoin sid roomId st.sioRooms from rfl]
      rw [lookupA_sioJoin_ne roomId htne]
      exact hlk
    exact mem_recipsL (lookupA_mem hlk') htne hrin

/-- Witness for C5: B joins room "x" where A is present — B is appended, B
receives the peer list containing exactly A, and A is notified. -/
theorem join_success_spec_witness :
    lookupA "x" (joinRoom (run [Op.join "A" "x" "a"]) "B" "x" "b").1.rooms
        = some [("A", "a"), ("B", "b")] ∧
    OutEvent.joinedRoom "B" "x" [("A", "a")]
        ∈ (joinRoom (run [Op.join "A" "x" "a"]) "B" "x" "b").2 ∧
    OutEvent.peerJoined "A" "B" "b"
        ∈ (joinRoom (run [Op.join "A" "x" "a"]) "B" "x" "b").2 := by
  have hrp : roomParts (run [Op.join "A" "x" "a"]) "x" = [("A", "a")] := by decide
  have h := join_success_spec (run [Op.join "A" "x" "a"]) "B" "x" "b"
    (by decide) (by decide) (by decide)
    (by
      intro t ht
      rw [hrp] at ht
      have hta : t = "A" := by
        rw [keysA_cons] at ht
        simpa [keysA_nil] using ht
      subst hta
      exact ⟨["x"], by decide, by decide⟩)
  rw [hrp] at h
  have hg : guestName "b" = "b" := by decide
  rw [hg] at h
  exact ⟨h.1, h.2.1, h.2.2 "A" (by decide)⟩

/-- Claim C3: an offer / answer / candidate received from a member A of a room
(in any reachable state whose other room members are connected and present in
the socket.io room) is delivered with payload unmodified and tagged with A's
connection id to every other current member and to nobody else; the state is
unchanged, and with zero recipients (peer already gone) nothing is delivered
and no error occurs. -/
theorem relay_fidelity (ops : List Op) (kind : RelayKind)
    (sidA roomId payload : String) (parts : List (String × String))
    (hr : roomId ≠ "")
    (hparts : lookupA roomId (run ops).rooms = some parts)
    (hA : sidA ∈ keysA parts)
    (hlive : ∀ t ∈ keysA parts, t ≠ sidA → connectedInRoom (run ops) t roomId) :
    (relayH kind (run ops) sidA roomId payload).1 = run ops ∧
    (∀ e ∈ (relayH kind (run ops) sidA roomId payload).2,
      ∃ t, e = OutEvent.relayMsg kind t sidA payload ∧ t ∈ keysA parts ∧ t ≠ sidA) ∧
    (∀ t ∈ keysA parts, t ≠ sidA →
      OutEvent.relayMsg kind t sidA payload
        ∈ (relayH kind (run ops) sidA roomId payload).2) ∧
    ((∀ t ∈ keysA parts, t = sidA) →
      (relayH kind (run ops) sidA roomId payload).2 = []) := by
  obtain ⟨h1, h2, h3, h4⟩ := stInv_run ops
  have honly : ∀ e ∈ (relayH kind (run ops) sidA roomId payload).2,
      ∃ t, e = OutEvent.relayMsg kind t sidA payload ∧ t ∈ keysA parts ∧ t ≠ sidA := by
    intro e he
    rw [relayH_events hr] at he
    obtain ⟨t, htr, hef⟩ := List.mem_map.mp he
    obtain ⟨rs, hmem, htne, hrin⟩ := recipsL_mem htr
    have hlk := mem_lookupA h2 hmem
    obtain ⟨parts2, hp2, hk2⟩ := h3 t rs hlk roomId hrin
    have hpe : parts2 = parts := Option.some_inj.mp (hp2.symm.trans hparts)
    subst hpe
    exact ⟨t, hef.symm, hk2, htne⟩
  refine ⟨?_, honly, ?_, ?_⟩
  · rw [relayH_events hr]
  · intro t ht htne
    obtain ⟨rs, hlk, hrin⟩ := hlive t ht htne
    rw [relayH_events hr]
    apply List.mem_map.mpr
    exact ⟨t, mem_recipsL (lookupA_mem hlk) htne hrin, rfl⟩
  · intro hall
    cases hev : (relayH kind (run ops) sidA roomId payload).2 with
    | nil => rfl
    | cons e tl =>
      exfalso
      have he : e ∈ (relayH kind (run ops) sidA roomId payload).2 := by
        rw [hev]
        exact List.mem_cons_self _ _
      obtain ⟨t, _, hk, htne⟩ := honly e he
      exact htne (hall t hk)

/-- Witness for C3: A's offer in a 2-member room reaches exactly B, with the
payload intact and A as the tagged sender, and the state is unchanged. -/
theorem relay_fidelity_witness :
    (relayH RelayKind.offer (run [Op.join "A" "x" "a", Op.join "B" "x" "b"])
        "A" "x" "SDP").1 = run [Op.join "A" "x" "a", Op.join "B" "x" "b"] ∧
    OutEvent.relayMsg RelayKind.offer "B" "A" "SDP"
      ∈ (relayH RelayKind.offer (run [Op.join "A" "x" "a", Op.join "B" "x" "b"])
          "A" "x" "SDP").2 := by
  have h := relay_fidelity [Op.join "A" "x" "a", Op.join "B" "x" "b"]
    RelayKind.offer "A" "x" "SDP" [("A", "a"), ("B", "b")]
    (by decide) (by decide) (by decide)
    (by
      intro t ht htne
      have htb : t = "B" := by
        rw [keysA_cons, keysA_cons] at ht
        rcases List.mem_cons.mp ht with hc | hc
        · exact absurd hc htne
        · simpa [keysA_nil] using hc
      subst htb
      exact ⟨["x"], by decide, by decide⟩)
  exact ⟨h.1, h.2.2.1 "B" (by decide) (by decide)⟩

/-- Counterexample for C6: A and B join "x", A explicitly leaves, then A's
transport disconnects. Because leave_room does not clear socket.data.roomId,
the disconnect handler repeats the removal and B receives peer_left for A a
second time — the claimed at-most-once notification is violated. (Also, a
leave for a non-member broadcasts peer_left, see the amended theorem.) -/
theorem duplicate_peer_left_cex :
    ((trace [Op.join "A" "x" "a", Op.join "B" "x" "b", Op.leave "A" "x",
             Op.disconnect "A"]).filter
        (fun e => e = OutEvent.peerLeft "B" "A")).length = 2 := by decide

/-- Claim C6 (amended): a leave for a connection that is not a member of the
named room changes no server state and does not error, but still broadcasts
peer_left for that connection to the room's current members; and a transport
disconnect after an explicit leave performs the registry removal at most once
(the second delete is a no-op on the room map) but emits the peer_left
broadcast a second time, because leave_room leaves socket.data.roomId set. -/
theorem leave_idempotence_amended :
    (∀ (st : SrvState) (sid rid : String), rid ≠ "" →
      sid ∉ keysA (roomParts st rid) →
      (∀ rs, lookupA sid st.sioRooms = some rs → rid ∉ rs) →
      (leaveRoom st sid rid).1 = st ∧
      (leaveRoom st sid rid).2
        = (recipsL st.sioRooms rid sid).map (fun t => OutEvent.peerLeft t sid)) ∧
    (∀ (st : SrvState) (sid rid : String) (parts : List (String × String)),
      sdataRoomOf st sid = some rid →
      lookupA rid st.rooms = some parts →
      sid ∉ keysA parts → parts ≠ [] →
      (disconnectH st sid).1.rooms = st.rooms ∧
      (disconnectH st sid).2
        = (recipsL st.sioRooms rid sid).map (fun t => OutEvent.peerLeft t sid)) := by
  constructor
  · intro st sid rid hr hnotmem hsio
    have hsioEq : sioLeave sid rid st.sioRooms = st.sioRooms := by
      cases hl : lookupA sid st.sioRooms with
      | none => exact sioLeave_none hl
      | some rs =>
        rw [sioLeave_some hl, filter_ne_of_not_mem (hsio rs hl)]
        exact setA_of_lookupA hl
    have hroomsEq : leaveRooms st sid rid = st.rooms := by
      cases hl : lookupA rid st.rooms with
      | none => exact leaveRooms_none hl
      | some parts =>
        have hrp : roomParts st rid = parts := by
          unfold roomParts
          rw [hl]
          rfl
        rw [hrp] at hnotmem
        rw [leaveRooms_some hl, eraseA_of_not_mem hnotmem]
        exact setA_of_lookupA hl
    have hstate : leaveState st sid rid = st := by
      unfold leaveState
      rw [hroomsEq, hsioEq]
    rw [leaveRoom_ne hr]
    refine ⟨hstate, ?_⟩
    rw [show (leaveState st sid rid).sioRooms = sioLeave sid rid st.sioRooms from rfl,
        hsioEq]
  · intro st sid rid parts hsd hparts hnotmem hne
    rw [disconnectH_some hsd]
    have hrooms : discRooms st sid rid = st.rooms := by
      rw [discRooms_some hparts, eraseA_of_not_mem hnotmem]
      rw [if_neg (fun hz => hne (List.length_eq_zero.mp hz))]
      exact setA_of_lookupA hparts
    refine ⟨hrooms, ?_⟩
    rw [show (discState st sid rid).sioRooms = eraseA sid st.sioRooms from rfl,
        recipsL_eraseA_self]

/-- Witness for C6 (amended): C, who never joined, leaves "x" while A and B
are in it — the state is unchanged but both members are notified; and A's
disconnect after its explicit leave leaves the room map unchanged while
notifying B again. -/
theorem leave_idempotence_amended_witness :
    (leaveRoom (run [Op.join "A" "x" "a", Op.join "B" "x" "b"]) "C" "x").1
      = run [Op.join "A" "x" "a", Op.join "B" "x" "b"] ∧
    (leaveRoom (run [Op.join "A" "x" "a", Op.join "B" "x" "b"]) "C" "x").2
      = [OutEvent.peerLeft "A" "C", OutEvent.peerLeft "B" "C"] ∧
    (disconnectH (run [Op.join "A" "x" "a", Op.join "B" "x" "b", Op.leave "A" "x"])
        "A").1.rooms
      = (run [Op.join "A" "x" "a", Op.join "B" "x" "b", Op.leave "A" "x"]).rooms ∧
    (disconnectH (run [Op.join "A" "x" "a", Op.join "B" "x" "b", Op.leave "A" "x"])
        "A").2
      = [OutEvent.peerLeft "B" "A"] := by
  have ha := leave_idempotence_amended.1
    (run [Op.join "A" "x" "a", Op.join "B" "x" "b"]) "C" "x"
    (by decide) (by decide)
    (by
      intro rs hrs
      rw [show lookupA "C" (run [Op.join "A" "x" "a", Op.join "B" "x" "b"]).sioRooms
            = none from by decide] at hrs
      exact Option.noConfusion hrs)
  have hb := leave_idempotence_amended.2
    (run [Op.join "A" "x" "a", Op.join "B" "x" "b", Op.leave "A" "x"]) "A" "x"
    [("B", "b")] (by decide) (by decide) (by decide) (by decide)
  refine ⟨ha.1, ?_, hb.1, ?_⟩
  · rw [ha.2]
    decide
  · rw [hb.2]
    decide

/-- Counterexample for C8: after join(A,"x"); join(A,"y"), connection A is a
member of both room "x" and room "y" in the registry — the second join does
not remove the first membership. -/
theorem double_membership_cex :
    lookupA "x" (run [Op.join "A" "x" "a", Op.join "A" "y" "a"]).rooms
        = some [("A", "a")] ∧
    lookupA "y" (run [Op.join "A" "x" "a", Op.join "A" "y" "a"]).rooms
        = some [("A", "a")] := by decide

/-- Claim C8 (amended): a join issued by an already-joined connection leaves
the connection registered in both its old and its new room — the old room's
participant map is untouched and the connection is added to the new room; only
the per-connection back-reference socket.data.roomId moves to the new room. -/
theorem second_join_double_membership (st : SrvState) (sid r2 n r1 : String)
    (parts1 : List (String × String))
    (hne : r1 ≠ r2) (h2 : r2 ≠ "")
    (hparts1 : lookupA r1 st.rooms = some parts1)
    (hmem1 : sid ∈ keysA parts1)
    (hfull : ¬ 2 ≤ (roomParts st r2).length) :
    lookupA r1 (joinRoom st sid r2 n).1.rooms = some parts1 ∧
    lookupA r2 (joinRoom st sid r2 n).1.rooms
        = some (setA sid (guestName n) (roomParts st r2)) ∧
    sid ∈ keysA (setA sid (guestName n) (roomParts st r2)) ∧
    sdataRoomOf (joinRoom st sid r2 n).1 sid = some r2 := by
  rw [joinRoom_accept h2 hfull]
  refine ⟨?_, ?_, ?_, ?_⟩
  · show lookupA r1
        (setA r2 (setA sid (guestName n) (roomParts st r2)) st.rooms) = some parts1
    rw [lookupA_setA_ne _ hne]
    exact hparts1
  · exact lookupA_setA_self _ _ _
  · exact self_mem_keysA_setA _ _ _
  · show sdataRoomOf (joinAccept st sid r2 (guestName n)) sid = some r2
    unfold sdataRoomOf
    rw [show (joinAccept st sid r2 (guestName n)).sdata
          = setA sid ⟨some r2, some (guestName n)⟩ st.sdata from rfl]
    rw [lookupA_setA_self]

/-- Witness for C8 (amended): A joins "x" then "y" — A stays in "x", is added
to "y", and the back-reference points to "y". -/
theorem second_join_double_membership_witness :
    lookupA "x" (joinRoom (run [Op.join "A" "x" "a"]) "A" "y" "a").1.rooms
        = some [("A", "a")] ∧
    sdataRoomOf (joinRoom (run [Op.join "A" "x" "a"]) "A" "y" "a").1 "A"
        = some "y" := by
  have h := second_join_double_membership (run [Op.join "A" "x" "a"])
    "A" "y" "a" "x" [("A", "a")] (by decide) (by decide) (by decide)
    (by decide) (by decide)
  exact ⟨h.1, h.2.2.2⟩
